import Mathlib

/-!
# Formal model of micrograd-rs (`src/operators.rs`)

A shallow embedding of the scalar reverse-mode automatic-differentiation
engine.  The Rust code stores graph nodes behind `Rc<RefCell<GraphNode>>`;
here the heap is made explicit: a `Store` is the list of all `GraphNode`s
ever created, and a `Value` handle is the index of its node in that list
(two handles alias the same node exactly when they hold the same index,
mirroring `Rc::as_ptr` identity).  Every operator takes the current store
and returns the grown store together with the index of the node it created.

Scalars (`f64` in Rust) are modelled by `FP`: an exact real number, or one
of the IEEE-754 special values `+inf`, `-inf`, `NaN`.  Arithmetic on finite
values is exact real arithmetic (the spec's 1e-6 tolerances absorb the
rounding this idealises away), while the propagation of special values
follows the IEEE-754 rules for the operations the engine performs.

The backward closures of the Rust code (`Option<Rc<dyn Fn()>>`, capturing
weak references to the output node and its operands plus any constant such
as the power exponent) are represented by `BackRule`: the captured node
indices and constants, with `applyRule` performing exactly the body of the
corresponding Rust closure.  During a backward pass every weak-reference
upgrade in the Rust code succeeds, because the topological-sort vector
holds strong references to every node involved, so `applyRule` models the
closures without the upgrade failure branches.
-/

namespace Micrograd

/-- Model of an `f64` scalar: an exact real, or an IEEE-754 special value. -/
inductive FP where
  | fin : ℝ → FP
  | inf : FP
  | neginf : FP
  | nan : FP

instance : Inhabited FP := ⟨FP.fin 0⟩

/-- IEEE addition on the model: exact on finite values, `inf + -inf = NaN`,
`NaN` propagates. -/
def FP.add : FP → FP → FP
  | .fin a, .fin b => .fin (a + b)
  | .fin _, .inf => .inf
  | .fin _, .neginf => .neginf
  | .inf, .fin _ => .inf
  | .neginf, .fin _ => .neginf
  | .inf, .inf => .inf
  | .neginf, .neginf => .neginf
  | .inf, .neginf => .nan
  | .neginf, .inf => .nan
  | _, .nan => .nan
  | .nan, _ => .nan

/-- IEEE subtraction on the model: exact on finite values, `inf - inf = NaN`,
`NaN` propagates. -/
def FP.sub : FP → FP → FP
  | .fin a, .fin b => .fin (a - b)
  | .fin _, .inf => .neginf
  | .fin _, .neginf => .inf
  | .inf, .fin _ => .inf
  | .neginf, .fin _ => .neginf
  | .inf, .inf => .nan
  | .inf, .neginf => .inf
  | .neginf, .inf => .neginf
  | .neginf, .neginf => .nan
  | _, .nan => .nan
  | .nan, _ => .nan

/-- IEEE multiplication on the model: exact on finite values,
`0 * inf = NaN`, otherwise an infinity keeps the product's sign, `NaN`
propagates. -/
noncomputable def FP.mul : FP → FP → FP
  | .fin a, .fin b => .fin (a * b)
  | .fin a, .inf => if a = 0 then .nan else if 0 < a then .inf else .neginf
  | .fin a, .neginf => if a = 0 then .nan else if 0 < a then .neginf else .inf
  | .inf, .fin b => if b = 0 then .nan else if 0 < b then .inf else .neginf
  | .neginf, .fin b => if b = 0 then .nan else if 0 < b then .neginf else .inf
  | .inf, .inf => .inf
  | .inf, .neginf => .neginf
  | .neginf, .inf => .neginf
  | .neginf, .neginf => .inf
  | _, .nan => .nan
  | .nan, _ => .nan

/-- Model of `f64::powf` with a (finite) exponent, on the arguments the
engine reaches: `pow(x, 0) = 1` for every `x`, `pow(0, y) = +inf` for
`y < 0`, finite positive bases follow the real power function `rpow`, an
infinite base follows the IEEE magnitude rules (the even/positive sign
convention is used for `-inf` bases, which no operator of the engine
produces). -/
noncomputable def FP.powf : FP → ℝ → FP
  | .fin x, y => if x = 0 ∧ y < 0 then .inf else .fin (x ^ y)
  | .inf, y => if y = 0 then .fin 1 else if 0 < y then .inf else .fin 0
  | .neginf, y => if y = 0 then .fin 1 else .nan
  | .nan, y => if y = 0 then .fin 1 else .nan

/-- Model of `f64::tanh`. -/
noncomputable def FP.tanh : FP → FP
  | .fin x => .fin (Real.tanh x)
  | .inf => .fin 1
  | .neginf => .fin (-1)
  | .nan => .nan

/-- Model of `f64::exp`. -/
noncomputable def FP.exp : FP → FP
  | .fin x => .fin (Real.exp x)
  | .inf => .inf
  | .neginf => .fin 0
  | .nan => .nan

/-- The scalar is a special value: an infinity or `NaN`. -/
def FP.infOrNan (v : FP) : Prop := v = .inf ∨ v = .neginf ∨ v = .nan

/-- The scalar is finite and within `eps` of `c`. -/
def FP.within (v : FP) (c eps : ℝ) : Prop := ∃ x, v = FP.fin x ∧ |x - c| ≤ eps

/-- The representation of a stored backward closure: the operator kind
together with the node indices (and constant exponent) the Rust closure
captures.  `out` is the node owning the closure, the remaining indices are
its operands. -/
inductive BackRule where
  | addR (out a b : Nat)
  | mulR (out a b : Nat)
  | powR (out a : Nat) (exponent : ℝ)
  | tanhR (out a : Nat)
  | expR (out a : Nat)

/-- `GraphNode` of `src/operators.rs`: forward value, accumulated gradient,
diagnostic label, parent handles (`prev`), operator tag, and the optional
backward closure. -/
structure GraphNode where
  data : FP
  grad : FP
  label : String
  prev : List Nat
  op : Option String
  backward : Option BackRule

instance : Inhabited GraphNode := ⟨⟨FP.fin 0, FP.fin 0, "", [], none, none⟩⟩

/-- The explicit heap: every `GraphNode` created so far, a `Value` handle
being an index into this list. -/
abbrev Store := List GraphNode

/-- Dereference a handle (total, with a junk default for dangling indices;
the program only ever holds valid indices). -/
def getN (s : Store) (i : Nat) : GraphNode := List.getD s i default

/-- Length of the store (number of nodes created so far). -/
abbrev lenS (s : Store) : Nat := List.length s

/-- Overwrite one node's `grad` field in place. -/
def setGrad (s : Store) (i : Nat) (g : FP) : Store :=
  List.set s i { getN s i with grad := g }

/-- `Value::new(data, label)`: append a fresh leaf node (no parents, no
backward closure, gradient `0.0`) and return its handle. -/
def valueNew (s : Store) (x : FP) (lab : String) : Store × Nat :=
  (s ++ [{ data := x, grad := FP.fin 0, label := lab, prev := [], op := none,
           backward := none }], lenS s)

/-- `impl Add for Value`: forward sum, parents `[a, b]`, tag `"+"`, and the
addition backward closure. -/
def addV (s : Store) (a b : Nat) : Store × Nat :=
  (s ++ [{ data := FP.add (getN s a).data (getN s b).data, grad := FP.fin 0,
           label := "+", prev := [a, b], op := some "+",
           backward := some (.addR (lenS s) a b) }], lenS s)

/-- `impl Mul for Value`: forward product, parents `[a, b]`, tag `"*"`, and
the product-rule backward closure. -/
noncomputable def mulV (s : Store) (a b : Nat) : Store × Nat :=
  (s ++ [{ data := FP.mul (getN s a).data (getN s b).data, grad := FP.fin 0,
           label := "*", prev := [a, b], op := some "*",
           backward := some (.mulR (lenS s) a b) }], lenS s)

/-- `Value::powop(self, other)`: the exponent is a constant scalar, not a
node; the result node's only parent is `a`. -/
noncomputable def powop (s : Store) (a : Nat) (k : ℝ) : Store × Nat :=
  (s ++ [{ data := FP.powf (getN s a).data k, grad := FP.fin 0,
           label := "pow", prev := [a], op := some "pow",
           backward := some (.powR (lenS s) a k) }], lenS s)

/-- `Value::tanh(self)`. -/
noncomputable def tanhV (s : Store) (a : Nat) : Store × Nat :=
  (s ++ [{ data := FP.tanh (getN s a).data, grad := FP.fin 0,
           label := "tanh", prev := [a], op := some "tanh",
           backward := some (.tanhR (lenS s) a) }], lenS s)

/-- `Value::exp(self)`. -/
noncomputable def expV (s : Store) (a : Nat) : Store × Nat :=
  (s ++ [{ data := FP.exp (getN s a).data, grad := FP.fin 0,
           label := "exp", prev := [a], op := some "exp",
           backward := some (.expR (lenS s) a) }], lenS s)

/-- `impl Add<f64> for Value` (and the `&Value` variant, which only clones
the handle first): promote the scalar to a fresh unlabelled leaf, then add. -/
def addF (s : Store) (a : Nat) (x : ℝ) : Store × Nat :=
  let sb := valueNew s (FP.fin x) ""
  addV sb.1 a sb.2

/-- `impl Mul<f64> for Value` (and the `&Value` variant): promote the scalar
to a fresh unlabelled leaf, then multiply. -/
noncomputable def mulF (s : Store) (a : Nat) (x : ℝ) : Store × Nat :=
  let sb := valueNew s (FP.fin x) ""
  mulV sb.1 a sb.2

open scoped Classical

/-- `impl Div for Value`: `panic!("Divide by zero")` when the divisor's
current `data` is exactly `0.0` (modelled by `none`; the panic fires before
any node is created, so a failed call leaves the store untouched),
otherwise `self.clone() * other.powop(-1)`. -/
noncomputable def divV (s : Store) (a b : Nat) : Option (Store × Nat) :=
  if (getN s b).data = FP.fin 0 then none
  else
    let sp := powop s b (-1)
    some (mulV sp.1 a sp.2)

/-- `impl Div<f64> for Value` (and the `&Value` variant): no zero check;
`self * Value::from(rhs).powop(-1)`. -/
noncomputable def divF (s : Store) (a : Nat) (x : ℝ) : Store × Nat :=
  let sb := valueNew s (FP.fin x) ""
  let sp := powop sb.1 sb.2 (-1)
  mulV sp.1 a sp.2

/-- `impl Sub for Value`: `self.clone() + (other * -1.0)`. -/
noncomputable def subV (s : Store) (a b : Nat) : Store × Nat :=
  let sm := mulF s b (-1)
  addV sm.1 a sm.2

/-- The body of the backward closure owned by one node, exactly as the Rust
closures read and write the graph: read the output node's `grad` (and
`data` where needed), then accumulate into each operand's `grad` with `+=`,
sequentially, re-reading between the two writes (so two edges to the same
node compound rather than overwrite). -/
noncomputable def applyRule (st : Store) : BackRule → Store
  | .addR out a b =>
    let og := (getN st out).grad
    let st1 := setGrad st a (FP.add (getN st a).grad og)
    setGrad st1 b (FP.add (getN st1 b).grad og)
  | .mulR out a b =>
    let og := (getN st out).grad
    let av := (getN st a).data
    let bv := (getN st b).data
    let st1 := setGrad st a (FP.add (getN st a).grad (FP.mul bv og))
    setGrad st1 b (FP.add (getN st1 b).grad (FP.mul av og))
  | .powR out a k =>
    let og := (getN st out).grad
    let av := (getN st a).data
    setGrad st a
      (FP.add (getN st a).grad (FP.mul (FP.mul (FP.fin k) (FP.powf av (k - 1))) og))
  | .tanhR out a =>
    let og := (getN st out).grad
    let ov := (getN st out).data
    setGrad st a
      (FP.add (getN st a).grad (FP.mul (FP.sub (FP.fin 1) (FP.powf ov 2)) og))
  | .expR out a =>
    let og := (getN st out).grad
    let ov := (getN st out).data
    setGrad st a (FP.add (getN st a).grad (FP.mul ov og))

/-- Spec-side desugaring (§4.2 of the spec): `divide(a,b) = multiply(a,
power(b, -1))`, failing (aborting the operation) when `b.data == 0.0`. -/
noncomputable def divideSpec (s : Store) (a b : Nat) : Option (Store × Nat) :=
  if (getN s b).data = FP.fin 0 then none
  else
    let sp := powop s b (-1)
    some (mulV sp.1 a sp.2)

/-- Spec-side desugaring (§4.2 of the spec): `subtract(a,b) = add(a,
multiply(b, -1.0))`, the scalar `-1.0` being promoted to a fresh leaf. -/
noncomputable def subtractSpec (s : Store) (a b : Nat) : Store × Nat :=
  let sm := mulF s b (-1)
  addV sm.1 a sm.2

/-- The recursive DFS of `GraphNode::topological_sort`, with an explicit
fuel argument standing in for the call stack (any fuel larger than every
node index reached behaves like the Rust recursion, which terminates
because parent indices strictly decrease).  State: the `visited` set and
the post-order `topo` vector. -/
def dfsAux (s : Store) : Nat → Nat → List Nat × List Nat → List Nat × List Nat
  | 0, _, vt => vt
  | fuel + 1, i, vt =>
    if i ∈ vt.1 then vt
    else
      let vt2 := (getN s i).prev.foldl (fun acc j => dfsAux s fuel j acc) (i :: vt.1, vt.2)
      (vt2.1, vt2.2 ++ [i])

/-- `GraphNode::topological_sort`: DFS post-order from the root, visiting
each node (identified by which underlying `GraphNode` it is, i.e. by its
store index) at most once. -/
def topological_sort (s : Store) (root : Nat) : List Nat :=
  (dfsAux s (lenS s + 1) root ([], [])).2

/-- One iteration of the backward loop: invoke the node's backward closure
if it has one, otherwise (a leaf) do nothing. -/
noncomputable def bstep (st : Store) (i : Nat) : Store :=
  match (getN st i).backward with
  | some r => applyRule st r
  | none => st

/-- `GraphNode::backward`: topologically sort the root's ancestor graph,
seed the root's gradient with `1.0`, then replay the order in reverse,
invoking each node's backward closure where present. -/
noncomputable def backward (s : Store) (root : Nat) : Store :=
  (topological_sort s root).reverse.foldl bstep (setGrad s root (FP.fin 1))

/-- The store of the end-to-end scenario: leaves `x1 = 2.0` (node 0),
`x2 = 0.0` (node 1), `w1 = -3.0` (node 2), `w2 = 1.0` (node 3),
`b = 6.8813735870195432` (node 4); then `x1*w1` (node 5), `x2*w2`
(node 6), `x1*w1 + x2*w2` (node 7), `n` (node 8), `o = tanh(n)`
(node 9). -/
noncomputable def scenarioStore : Store :=
  let sx1 := valueNew [] (FP.fin 2.0) "x1"
  let sx2 := valueNew sx1.1 (FP.fin 0.0) "x2"
  let sw1 := valueNew sx2.1 (FP.fin (-3.0)) "w1"
  let sw2 := valueNew sw1.1 (FP.fin 1.0) "w2"
  let sb := valueNew sw2.1 (FP.fin 6.8813735870195432) "b"
  let sm1 := mulV sb.1 sx1.2 sw1.2
  let sm2 := mulV sm1.1 sx2.2 sw2.2
  let ss := addV sm2.1 sm1.2 sm2.2
  let sn := addV ss.1 ss.2 sb.2
  (tanhV sn.1 sn.2).1

/-- `j` is a parent (operand) of node `i`. -/
def PEdge (s : Store) (i j : Nat) : Prop := j ∈ (getN s i).prev

/-- `x` is reachable from `i` by following parent edges (reflexively and
transitively): `x` is an ancestor of `i` in the computation graph. -/
def Reach (s : Store) : Nat → Nat → Prop := Relation.ReflTransGen (PEdge s)

/-- `x` is a strict ancestor of `i`: reachable by at least one parent edge. -/
def StrictReach (s : Store) : Nat → Nat → Prop := Relation.TransGen (PEdge s)

/-- The store invariant the engine maintains: every node only lists
already-existing nodes as parents, so parent indices are strictly smaller
than the node's own index. -/
def WF (s : Store) : Prop := ∀ i, ∀ j ∈ (getN s i).prev, j < i

/-- The operand indices captured by a backward closure. -/
def ruleParents : BackRule → List Nat
  | .addR _ a b => [a, b]
  | .mulR _ a b => [a, b]
  | .powR _ a _ => [a]
  | .tanhR _ a => [a]
  | .expR _ a => [a]

/-- The stored backward closures are consistent with the graph: the operand
nodes a node's closure captures are exactly among that node's parents. -/
def RulesWF (s : Store) : Prop :=
  ∀ i r, (getN s i).backward = some r → ∀ j ∈ ruleParents r, j ∈ (getN s i).prev

/-- `orderedFrom s seen t`: walking `t` from the left, every element's
parents already occur among `seen` or the strictly earlier elements of `t`. -/
def orderedFrom (s : Store) : List Nat → List Nat → Prop
  | _, [] => True
  | seen, x :: rest =>
    (∀ j ∈ (getN s x).prev, j ∈ seen) ∧ orderedFrom s (seen ++ [x]) rest

/-- A topological ordering: every element appears strictly after all of its
parents. -/
def orderedT (s : Store) (t : List Nat) : Prop := orderedFrom s [] t

/-- Stores constructible through the engine's public API: leaf construction
and the operator entry points, always applied to valid handles.  Every
store that exists during a run of the program is of this shape. -/
inductive Built : Store → Prop
  | empty : Built []
  | leaf (s x lab) : Built s → Built (valueNew s x lab).1
  | addB (s a b) : Built s → a < lenS s → b < lenS s → Built (addV s a b).1
  | mulB (s a b) : Built s → a < lenS s → b < lenS s → Built (mulV s a b).1
  | powB (s a k) : Built s → a < lenS s → Built (powop s a k).1
  | tanhB (s a) : Built s → a < lenS s → Built (tanhV s a).1
  | expB (s a) : Built s → a < lenS s → Built (expV s a).1
  | addFB (s a x) : Built s → a < lenS s → Built (addF s a x).1
  | mulFB (s a x) : Built s → a < lenS s → Built (mulF s a x).1
  | divFB (s a x) : Built s → a < lenS s → Built (divF s a x).1
  | subB (s a b) : Built s → a < lenS s → b < lenS s → Built (subV s a b).1
  | divB (s a b p) : Built s → a < lenS s → b < lenS s → divV s a b = some p →
      Built p.1

/-- All fields of a node except `grad`: the part of a node the backward
pass must leave untouched. -/
def nodeFrame (n : GraphNode) :
    FP × String × List Nat × Option String × Option BackRule :=
  (n.data, n.label, n.prev, n.op, n.backward)

/-- Invariant of the DFS state `(visited, topo)`: `topo` is duplicate-free,
contained in `visited`, topologically ordered, and downward closed under
parent edges. -/
structure DfsInv (s : Store) (v t : List Nat) : Prop where
  subV : ∀ x ∈ t, x ∈ v
  nodup : t.Nodup
  ord : orderedT s t
  closed : ∀ x ∈ t, ∀ j ∈ (getN s x).prev, j ∈ t

/-- What one DFS call (or a fold of calls) does to the state: `visited`
grows, `topo` is extended on the right, the invariant is maintained, and
every newly visited node has been fully processed (pushed to `topo`). -/
structure DfsPost (s : Store) (v t v' t' : List Nat) : Prop where
  vmono : ∀ x ∈ v, x ∈ v'
  text : ∃ d, t' = t ++ d
  inv : DfsInv s v' t'
  vnew : ∀ x ∈ v', x ∈ v ∨ x ∈ t'

section Lemmas

lemma getN_append_lt (s : Store) (l : List GraphNode) (i : Nat) (h : i < lenS s) :
    getN (s ++ l) i = getN s i := by
  simp [getN, List.getD_eq_getElem?_getD, List.getElem?_append_left h]

lemma getN_append_self (s : Store) (n : GraphNode) : getN (s ++ [n]) (lenS s) = n := by
  simp [getN, List.getD_eq_getElem?_getD]

lemma getN_ge (s : Store) (i : Nat) (h : lenS s ≤ i) : getN s i = default := by
  simp [getN, List.getD_eq_getElem?_getD, List.getElem?_eq_none h]

lemma lenS_setGrad (s : Store) (i : Nat) (g : FP) : lenS (setGrad s i g) = lenS s := by
  simp [setGrad]

lemma getN_setGrad_ne (s : Store) (i j : Nat) (g : FP) (h : j ≠ i) :
    getN (setGrad s i g) j = getN s j := by
  simp [setGrad, getN, List.getD_eq_getElem?_getD, List.getElem?_set_ne (Ne.symm h)]

lemma getN_setGrad_self (s : Store) (i : Nat) (g : FP) (h : i < lenS s) :
    getN (setGrad s i g) i = { getN s i with grad := g } := by
  simp [setGrad, getN, List.getD_eq_getElem?_getD, List.getElem?_set_self, h]

lemma setGrad_ge (s : Store) (i : Nat) (g : FP) (h : lenS s ≤ i) :
    setGrad s i g = s := by
  simp [setGrad, List.set_eq_of_length_le h]

/-- `setGrad` changes no field other than `grad`, of no node other than `i`. -/
lemma setGrad_fields (s : Store) (i g j) :
    (getN (setGrad s i g) j).data = (getN s j).data ∧
    (getN (setGrad s i g) j).label = (getN s j).label ∧
    (getN (setGrad s i g) j).prev = (getN s j).prev ∧
    (getN (setGrad s i g) j).op = (getN s j).op ∧
    (getN (setGrad s i g) j).backward = (getN s j).backward := by
  by_cases hij : j = i
  · subst hij
    by_cases hlen : j < lenS s
    · rw [getN_setGrad_self s j g hlen]
      exact ⟨rfl, rfl, rfl, rfl, rfl⟩
    · rw [setGrad_ge s j g (le_of_not_lt hlen)]
      exact ⟨rfl, rfl, rfl, rfl, rfl⟩
  · rw [getN_setGrad_ne s i j g hij]
    exact ⟨rfl, rfl, rfl, rfl, rfl⟩

lemma reach_le (s : Store) (hWF : WF s) {i x : Nat} (h : Reach s i x) : x ≤ i := by
  induction h with
  | refl => exact le_refl i
  | tail _ h2 ih => exact le_of_lt (lt_of_lt_of_le (hWF _ _ h2) ih)

lemma strictReach_lt (s : Store) (hWF : WF s) {i x : Nat} (h : StrictReach s i x) :
    x < i := by
  induction h with
  | single h1 => exact hWF _ _ h1
  | tail _ h2 ih => exact lt_trans (hWF _ _ h2) ih

lemma reach_parent (s : Store) {root i j : Nat} (h : Reach s root i)
    (hj : j ∈ (getN s i).prev) : Reach s root j :=
  Relation.ReflTransGen.tail h hj

lemma orderedFrom_append (s : Store) :
    ∀ t seen i, orderedFrom s seen (t ++ [i]) ↔
      (orderedFrom s seen t ∧ ∀ j ∈ (getN s i).prev, j ∈ seen ++ t) := by
  intro t
  induction t with
  | nil => intro seen i; simp [orderedFrom]
  | cons x rest ih =>
    intro seen i
    constructor
    · rintro ⟨h1, h2⟩
      rw [List.append_eq, ih] at h2
      refine ⟨⟨h1, h2.1⟩, fun j hj => ?_⟩
      simpa [List.append_assoc] using h2.2 j hj
    · rintro ⟨⟨h1, h2⟩, h3⟩
      refine ⟨h1, ?_⟩
      rw [List.append_eq, ih]
      exact ⟨h2, fun j hj => by simpa [List.append_assoc] using h3 j hj⟩

lemma mem_of_reach_closed (s : Store) {t : List Nat}
    (hcl : ∀ x ∈ t, ∀ j ∈ (getN s x).prev, j ∈ t) {i x : Nat} (hi : i ∈ t)
    (h : Reach s i x) : x ∈ t := by
  induction h with
  | refl => exact hi
  | tail _ h2 ih => exact hcl _ ih _ h2

/-- Specification of the inner `for w in parents` loop of the DFS: folding
`dfsAux` over a list of nodes all smaller than the current node `c`
maintains the invariant, completes every listed node, and only adds
ancestors of listed nodes to `topo`. -/
lemma dfsList_spec (s : Store) (fuel : Nat)
    (IH : ∀ b i v t, i < fuel → i < b → (∀ x ∈ v, x ∈ t ∨ b ≤ x) → DfsInv s v t →
      DfsPost s v t (dfsAux s fuel i (v, t)).1 (dfsAux s fuel i (v, t)).2 ∧
      i ∈ (dfsAux s fuel i (v, t)).2 ∧
      (∀ x ∈ (dfsAux s fuel i (v, t)).2, x ∈ t ∨ Reach s i x)) :
    ∀ (L : List Nat) (c : Nat) (v t : List Nat), (∀ j ∈ L, j < fuel) → (∀ j ∈ L, j < c) →
      (∀ x ∈ v, x ∈ t ∨ c ≤ x) → DfsInv s v t →
      DfsPost s v t (L.foldl (fun acc j => dfsAux s fuel j acc) (v, t)).1
        (L.foldl (fun acc j => dfsAux s fuel j acc) (v, t)).2 ∧
      (∀ j ∈ L, j ∈ (L.foldl (fun acc j => dfsAux s fuel j acc) (v, t)).2) ∧
      (∀ x ∈ (L.foldl (fun acc j => dfsAux s fuel j acc) (v, t)).2,
        x ∈ t ∨ ∃ j ∈ L, Reach s j x) := by
  intro L
  induction L with
  | nil =>
    intro c v t _ _ _ hinv
    refine ⟨⟨fun x hx => hx, ⟨[], by simp⟩, hinv, fun x hx => Or.inl hx⟩, by simp,
      fun x hx => Or.inl hx⟩
  | cons j rest ihL =>
    intro c v t hf hc hb hinv
    have hfold : (j :: rest).foldl (fun acc j => dfsAux s fuel j acc) (v, t) =
        rest.foldl (fun acc j => dfsAux s fuel j acc) (dfsAux s fuel j (v, t)) := by
      simp [List.foldl_cons]
    rw [hfold]
    obtain ⟨p1, p2, p3⟩ := IH c j v t (hf j (by simp)) (hc j (by simp)) hb hinv
    obtain ⟨d1, hd1⟩ := p1.text
    have ht1 : ∀ x ∈ t, x ∈ (dfsAux s fuel j (v, t)).2 := by
      intro x hx; rw [hd1]; exact List.mem_append_left _ hx
    have hb1 : ∀ x ∈ (dfsAux s fuel j (v, t)).1, x ∈ (dfsAux s fuel j (v, t)).2 ∨ c ≤ x := by
      intro x hx
      rcases p1.vnew x hx with hv | ht
      · rcases hb x hv with ht | hcx
        · exact Or.inl (ht1 x ht)
        · exact Or.inr hcx
      · exact Or.inl ht
    have heta : ((dfsAux s fuel j (v, t)).1, (dfsAux s fuel j (v, t)).2) =
        dfsAux s fuel j (v, t) := rfl
    obtain ⟨q1, q2, q3⟩ := ihL c (dfsAux s fuel j (v, t)).1 (dfsAux s fuel j (v, t)).2
      (fun x hx => hf x (by simp [hx])) (fun x hx => hc x (by simp [hx])) hb1 p1.inv
    rw [heta] at q1 q2 q3
    obtain ⟨d2, hd2⟩ := q1.text
    have ht2 : ∀ x ∈ (dfsAux s fuel j (v, t)).2,
        x ∈ (rest.foldl (fun acc j => dfsAux s fuel j acc) (dfsAux s fuel j (v, t))).2 := by
      intro x hx; rw [hd2]; exact List.mem_append_left _ hx
    refine ⟨⟨fun x hx => q1.vmono x (p1.vmono x hx),
      ⟨d1 ++ d2, by rw [hd2, hd1, List.append_assoc]⟩, q1.inv, ?_⟩, ?_, ?_⟩
    · intro x hx
      rcases q1.vnew x hx with hv | ht
      · rcases p1.vnew x hv with hv' | ht'
        · exact Or.inl hv'
        · exact Or.inr (ht2 x ht')
      · exact Or.inr ht
    · intro x hx
      rcases List.mem_cons.mp hx with rfl | hx'
      · exact ht2 x p2
      · exact q2 x hx'
    · intro x hx
      rcases q3 x hx with ht | ⟨jj, hjj, hr⟩
      · rcases p3 x ht with ht' | hr'
        · exact Or.inl ht'
        · exact Or.inr ⟨j, by simp, hr'⟩
      · exact Or.inr ⟨jj, by simp [hjj], hr⟩

/-- Full specification of the recursive DFS of `topological_sort`, given
enough fuel (`node index < fuel`) and a well-formed store: the call
completes its node, maintains the state invariant, and pushes exactly
ancestors of its node onto `topo`.  The bound `b` records that every
visited-but-unfinished node (a node of the enclosing recursion path) has
index at least `b`. -/
lemma dfsAux_spec (s : Store) (hWF : WF s) :
    ∀ fuel b i v t, i < fuel → i < b → (∀ x ∈ v, x ∈ t ∨ b ≤ x) → DfsInv s v t →
      DfsPost s v t (dfsAux s fuel i (v, t)).1 (dfsAux s fuel i (v, t)).2 ∧
      i ∈ (dfsAux s fuel i (v, t)).2 ∧
      (∀ x ∈ (dfsAux s fuel i (v, t)).2, x ∈ t ∨ Reach s i x) := by
  intro fuel
  induction fuel with
  | zero => intro b i v t hif; omega
  | succ fuel ih =>
    intro b i v t hif hib hb hinv
    by_cases hiv : i ∈ v
    · have he : dfsAux s (fuel + 1) i (v, t) = (v, t) := by
        simp [dfsAux, hiv]
      rw [he]
      have hit : i ∈ t := by
        rcases hb i hiv with ht | hbi
        · exact ht
        · omega
      exact ⟨⟨fun x hx => hx, ⟨[], by simp⟩, hinv, fun x hx => Or.inl hx⟩, hit,
        fun x hx => Or.inl hx⟩
    · have he : dfsAux s (fuel + 1) i (v, t) =
          (((getN s i).prev.foldl (fun acc j => dfsAux s fuel j acc) (i :: v, t)).1,
           ((getN s i).prev.foldl (fun acc j => dfsAux s fuel j acc) (i :: v, t)).2
             ++ [i]) := by
        simp [dfsAux, hiv]
      rw [he]
      have hfj : ∀ j ∈ (getN s i).prev, j < fuel :=
        fun j hj => lt_of_lt_of_le (hWF i j hj) (Nat.lt_succ_iff.mp hif)
      have hb' : ∀ x ∈ i :: v, x ∈ t ∨ i ≤ x := by
        intro x hx
        rcases List.mem_cons.mp hx with rfl | hx'
        · exact Or.inr (le_refl x)
        · rcases hb x hx' with ht | hbx
          · exact Or.inl ht
          · exact Or.inr (by omega)
      have hinv' : DfsInv s (i :: v) t :=
        ⟨fun x hx => List.mem_cons_of_mem i (hinv.subV x hx), hinv.nodup, hinv.ord,
          hinv.closed⟩
      obtain ⟨q1, q2, q3⟩ := dfsList_spec s fuel ih (getN s i).prev i (i :: v) t
        hfj (hWF i) hb' hinv'
      have hit : i ∉ ((getN s i).prev.foldl (fun acc j => dfsAux s fuel j acc)
          (i :: v, t)).2 := by
        intro hmem
        rcases q3 i hmem with ht | ⟨j, hj, hr⟩
        · exact hiv (hinv.subV i ht)
        · exact absurd (reach_le s hWF hr) (not_le.mpr (hWF i j hj))
      obtain ⟨d, hd⟩ := q1.text
      refine ⟨⟨fun x hx => q1.vmono x (List.mem_cons_of_mem i hx),
        ⟨d ++ [i], by rw [hd, List.append_assoc]⟩,
        ⟨?_, ?_, ?_, ?_⟩, ?_⟩, by simp, ?_⟩
      · intro x hx
        rcases List.mem_append.mp hx with hx' | hx'
        · exact q1.inv.subV x hx'
        · rw [List.mem_singleton.mp hx']
          exact q1.vmono i (by simp)
      · rw [List.nodup_append]
        exact ⟨q1.inv.nodup, List.nodup_singleton i,
          fun x hx => by simp; intro hxi; exact hit (hxi ▸ hx)⟩
      · rw [orderedT, orderedFrom_append]
        exact ⟨q1.inv.ord, fun j hj => by simpa using q2 j hj⟩
      · intro x hx j hj
        rcases List.mem_append.mp hx with hx' | hx'
        · exact List.mem_append_left _ (q1.inv.closed x hx' j hj)
        · rw [List.mem_singleton.mp hx'] at hj
          exact List.mem_append_left _ (q2 j hj)
      · intro x hx
        rcases q1.vnew x hx with hv | ht
        · rcases List.mem_cons.mp hv with rfl | hv'
          · exact Or.inr (by simp)
          · exact Or.inl hv'
        · exact Or.inr (List.mem_append_left _ ht)
      · intro x hx
        rcases List.mem_append.mp hx with hx' | hx'
        · rcases q3 x hx' with ht | ⟨j, hj, hr⟩
          · exact Or.inl ht
          · exact Or.inr (Relation.ReflTransGen.head hj hr)
        · rw [List.mem_singleton.mp hx']
          exact Or.inr Relation.ReflTransGen.refl

/-- Correctness of `GraphNode::topological_sort` on a well-formed store:
the returned sequence contains exactly the ancestors of the root, each
exactly once, each strictly after all of its parents. -/
lemma topo_spec (s : Store) (hWF : WF s) (root : Nat) (hroot : root < lenS s) :
    (∀ x, x ∈ topological_sort s root ↔ Reach s root x) ∧
      (topological_sort s root).Nodup ∧ orderedT s (topological_sort s root) := by
  have h := dfsAux_spec s hWF (lenS s + 1) (root + 1) root [] [] (by omega) (by omega)
    (by simp) ⟨by simp, List.nodup_nil, trivial, by simp⟩
  obtain ⟨p, hroot_mem, hreach⟩ := h
  refine ⟨fun x => ⟨fun hx => ?_, fun hx => ?_⟩, p.inv.nodup, p.inv.ord⟩
  · rcases hreach x hx with h' | h'
    · simp at h'
    · exact h'
  · exact mem_of_reach_closed s p.inv.closed hroot_mem hx

/-- One-node append grows the store by one. -/
lemma lenS_append_one (s : Store) (n : GraphNode) : lenS (s ++ [n]) = lenS s + 1 := by
  simp [lenS]

/-- Appending one node whose parents already exist (and whose backward rule
captures only those parents) preserves both store invariants. -/
lemma wf2_append (s : Store) (n : GraphNode) (h : WF s ∧ RulesWF s)
    (hp : ∀ j ∈ n.prev, j < lenS s)
    (hr : ∀ r, n.backward = some r → ∀ j ∈ ruleParents r, j ∈ n.prev) :
    WF (s ++ [n]) ∧ RulesWF (s ++ [n]) := by
  have hlen : lenS (s ++ [n]) = lenS s + 1 := lenS_append_one s n
  constructor
  · intro i j hj
    rcases lt_trichotomy i (lenS s) with hi | hi | hi
    · rw [getN_append_lt s [n] i hi] at hj
      exact h.1 i j hj
    · subst hi
      rw [getN_append_self] at hj
      exact hp j hj
    · rw [getN_ge _ i (by omega)] at hj
      simp [default] at hj
  · intro i r hri j hj
    rcases lt_trichotomy i (lenS s) with hi | hi | hi
    · rw [getN_append_lt s [n] i hi] at hri ⊢
      exact h.2 i r hri j hj
    · subst hi
      rw [getN_append_self] at hri ⊢
      exact hr r hri j hj
    · rw [getN_ge _ i (by omega)] at hri
      simp [default] at hri

/-- Every store constructible through the API is well-formed: parent
indices strictly decrease, and backward closures capture only the parents
of their node. -/
lemma built_wf (s : Store) (h : Built s) : WF s ∧ RulesWF s := by
  induction h with
  | empty =>
    constructor
    · intro i j hj
      rw [getN_ge _ i (by simp [lenS])] at hj
      simp [default] at hj
    · intro i r hri j hj
      rw [getN_ge _ i (by simp [lenS])] at hri
      simp [default] at hri
  | leaf s x lab hb ih =>
    simp only [valueNew]
    exact wf2_append s _ ih (by simp) (by simp)
  | addB s a b hb ha hbb ih =>
    simp only [addV]
    refine wf2_append s _ ih (fun j hj => ?_) (fun r hri j hj => ?_)
    · rcases List.mem_cons.mp hj with rfl | hj'
      · exact ha
      · rw [List.mem_singleton.mp hj']; exact hbb
    · obtain rfl := Option.some.inj hri
      simpa [ruleParents] using hj
  | mulB s a b hb ha hbb ih =>
    simp only [mulV]
    refine wf2_append s _ ih (fun j hj => ?_) (fun r hri j hj => ?_)
    · rcases List.mem_cons.mp hj with rfl | hj'
      · exact ha
      · rw [List.mem_singleton.mp hj']; exact hbb
    · obtain rfl := Option.some.inj hri
      simpa [ruleParents] using hj
  | powB s a k hb ha ih =>
    simp only [powop]
    refine wf2_append s _ ih (fun j hj => ?_) (fun r hri j hj => ?_)
    · rw [List.mem_singleton.mp hj]; exact ha
    · obtain rfl := Option.some.inj hri
      simpa [ruleParents] using hj
  | tanhB s a hb ha ih =>
    simp only [tanhV]
    refine wf2_append s _ ih (fun j hj => ?_) (fun r hri j hj => ?_)
    · rw [List.mem_singleton.mp hj]; exact ha
    · obtain rfl := Option.some.inj hri
      simpa [ruleParents] using hj
  | expB s a hb ha ih =>
    simp only [expV]
    refine wf2_append s _ ih (fun j hj => ?_) (fun r hri j hj => ?_)
    · rw [List.mem_singleton.mp hj]; exact ha
    · obtain rfl := Option.some.inj hri
      simpa [ruleParents] using hj
  | addFB s a x hb ha ih =>
    simp only [addF, addV, valueNew]
    refine wf2_append _ _ (wf2_append s _ ih (by simp) (by simp))
      (fun j hj => ?_) (fun r hri j hj => ?_)
    · rcases List.mem_cons.mp hj with rfl | hj'
      · simp only [lenS_append_one]; omega
      · rw [List.mem_singleton.mp hj']; simp only [lenS_append_one]; omega
    · obtain rfl := Option.some.inj hri
      simpa [ruleParents] using hj
  | mulFB s a x hb ha ih =>
    simp only [mulF, mulV, valueNew]
    refine wf2_append _ _ (wf2_append s _ ih (by simp) (by simp))
      (fun j hj => ?_) (fun r hri j hj => ?_)
    · rcases List.mem_cons.mp hj with rfl | hj'
      · simp only [lenS_append_one]; omega
      · rw [List.mem_singleton.mp hj']; simp only [lenS_append_one]; omega
    · obtain rfl := Option.some.inj hri
      simpa [ruleParents] using hj
  | divFB s a x hb ha ih =>
    simp only [divF, mulV, powop, valueNew]
    refine wf2_append _ _ (wf2_append _ _ (wf2_append s _ ih (by simp) (by simp))
      (fun j hj => ?_) (fun r hri j hj => ?_)) (fun j hj => ?_) (fun r hri j hj => ?_)
    · rw [List.mem_singleton.mp hj]; simp only [lenS_append_one]; omega
    · obtain rfl := Option.some.inj hri
      simpa [ruleParents] using hj
    · rcases List.mem_cons.mp hj with rfl | hj'
      · simp only [lenS_append_one]; omega
      · rw [List.mem_singleton.mp hj']; simp only [lenS_append_one]; omega
    · obtain rfl := Option.some.inj hri
      simpa [ruleParents] using hj
  | subB s a b hb ha hbb ih =>
    simp only [subV, mulF, mulV, addV, valueNew]
    refine wf2_append _ _ (wf2_append _ _ (wf2_append s _ ih (by simp) (by simp))
      (fun j hj => ?_) (fun r hri j hj => ?_)) (fun j hj => ?_) (fun r hri j hj => ?_)
    · rcases List.mem_cons.mp hj with rfl | hj'
      · simp only [lenS_append_one]; omega
      · rw [List.mem_singleton.mp hj']; simp only [lenS_append_one]; omega
    · obtain rfl := Option.some.inj hri
      simpa [ruleParents] using hj
    · rcases List.mem_cons.mp hj with rfl | hj'
      · simp only [lenS_append_one]; omega
      · rw [List.mem_singleton.mp hj']; simp only [lenS_append_one]; omega
    · obtain rfl := Option.some.inj hri
      simpa [ruleParents] using hj
  | divB s a b p hb ha hbb heq ih =>
    rw [divV] at heq
    by_cases hz : (getN s b).data = FP.fin 0
    · simp [hz] at heq
    · simp only [hz, if_false] at heq
      obtain rfl : p = mulV (powop s b (-1)).1 a (powop s b (-1)).2 :=
        (Option.some.inj heq).symm
      simp only [mulV, powop]
      refine wf2_append _ _ (wf2_append s _ ih (fun j hj => ?_) (fun r hri j hj => ?_))
        (fun j hj => ?_) (fun r hri j hj => ?_)
      · rw [List.mem_singleton.mp hj]; exact hbb
      · obtain rfl := Option.some.inj hri
        simpa [ruleParents] using hj
      · rcases List.mem_cons.mp hj with rfl | hj'
        · simp only [lenS_append_one]; omega
        · rw [List.mem_singleton.mp hj']; simp only [lenS_append_one]; omega
      · obtain rfl := Option.some.inj hri
        simpa [ruleParents] using hj

lemma setGrad_frame (s : Store) (i : Nat) (g : FP) (j : Nat) :
    nodeFrame (getN (setGrad s i g) j) = nodeFrame (getN s j) := by
  obtain ⟨h1, h2, h3, h4, h5⟩ := setGrad_fields s i g j
  simp [nodeFrame, h1, h2, h3, h4, h5]

lemma applyRule_frame (st : Store) (r : BackRule) (j : Nat) :
    nodeFrame (getN (applyRule st r) j) = nodeFrame (getN st j) := by
  cases r <;> simp [applyRule, setGrad_frame]

lemma bstep_frame (st : Store) (i j : Nat) :
    nodeFrame (getN (bstep st i) j) = nodeFrame (getN st j) := by
  unfold bstep
  cases h : (getN st i).backward with
  | none => rfl
  | some r => exact applyRule_frame st r j

lemma foldl_bstep_frame :
    ∀ (L : List Nat) (st : Store) (j : Nat),
      nodeFrame (getN (L.foldl bstep st) j) = nodeFrame (getN st j) := by
  intro L
  induction L with
  | nil => intro st j; rfl
  | cons i rest ih => intro st j; rw [List.foldl_cons, ih, bstep_frame]

/-- The backward pass changes no field of any node other than `grad`. -/
lemma backward_frame (s : Store) (root : Nat) (j : Nat) :
    nodeFrame (getN (backward s root) j) = nodeFrame (getN s j) := by
  rw [backward, foldl_bstep_frame, setGrad_frame]

lemma lenS_applyRule (st : Store) (r : BackRule) : lenS (applyRule st r) = lenS st := by
  cases r <;> simp [applyRule, lenS_setGrad]

lemma lenS_bstep (st : Store) (i : Nat) : lenS (bstep st i) = lenS st := by
  unfold bstep
  cases h : (getN st i).backward with
  | none => rfl
  | some r => exact lenS_applyRule st r

lemma lenS_foldl_bstep :
    ∀ (L : List Nat) (st : Store), lenS (L.foldl bstep st) = lenS st := by
  intro L
  induction L with
  | nil => intro st; rfl
  | cons i rest ih => intro st; rw [List.foldl_cons, ih, lenS_bstep]

lemma lenS_backward (s : Store) (root : Nat) : lenS (backward s root) = lenS s := by
  rw [backward, lenS_foldl_bstep, lenS_setGrad]

lemma applyRule_grad_ne (st : Store) (r : BackRule) (i : Nat)
    (h : i ∉ ruleParents r) : (getN (applyRule st r) i).grad = (getN st i).grad := by
  cases r with
  | addR out a b =>
    simp [ruleParents] at h
    simp only [applyRule]
    rw [getN_setGrad_ne _ _ _ _ h.2, getN_setGrad_ne _ _ _ _ h.1]
  | mulR out a b =>
    simp [ruleParents] at h
    simp only [applyRule]
    rw [getN_setGrad_ne _ _ _ _ h.2, getN_setGrad_ne _ _ _ _ h.1]
  | powR out a k =>
    simp [ruleParents] at h
    simp only [applyRule]
    rw [getN_setGrad_ne _ _ _ _ h]
  | tanhR out a =>
    simp [ruleParents] at h
    simp only [applyRule]
    rw [getN_setGrad_ne _ _ _ _ h]
  | expR out a =>
    simp [ruleParents] at h
    simp only [applyRule]
    rw [getN_setGrad_ne _ _ _ _ h]

lemma frame_backward_eq {n m : GraphNode} (h : nodeFrame n = nodeFrame m) :
    n.backward = m.backward := by
  simp [nodeFrame, Prod.ext_iff] at h
  exact h.2.2.2.2

/-- Folding the backward steps over reachable nodes only changes gradients
of reachable nodes. -/
lemma backward_fold_grad_frame (s : Store) (hR : RulesWF s) (root : Nat) :
    ∀ (L : List Nat) (st : Store), (∀ x ∈ L, Reach s root x) →
      (∀ j, (getN st j).backward = (getN s j).backward) →
      ∀ i, ¬ Reach s root i → (getN (L.foldl bstep st) i).grad = (getN st i).grad := by
  intro L
  induction L with
  | nil => intro st _ _ i _; rfl
  | cons x rest ih =>
    intro st hL hb i hi
    rw [List.foldl_cons]
    have hb' : ∀ j, (getN (bstep st x) j).backward = (getN s j).backward :=
      fun j => (frame_backward_eq (bstep_frame st x j)).trans (hb j)
    have hstep : (getN (bstep st x) i).grad = (getN st i).grad := by
      unfold bstep
      cases h : (getN st x).backward with
      | none => rfl
      | some r =>
        have hrs : (getN s x).backward = some r := (hb x).symm.trans h
        refine applyRule_grad_ne st r i (fun hmem => hi ?_)
        exact reach_parent s (hL x (by simp)) (hR x r hrs i hmem)
    rw [ih (bstep st x) (fun y hy => hL y (by simp [hy])) hb' i hi, hstep]

/-- Certified rational bounds on `exp 0.8813735870195432`, from twelve
terms of the exponential series together with Mathlib's tail bound. -/
lemma exp_q_bounds : (2.41421355 : ℝ) ≤ Real.exp 0.8813735870195432 ∧
    Real.exp 0.8813735870195432 ≤ 2.41421358 := by
  set q : ℝ := 0.8813735870195432 with hqdef
  have hqpos : (0 : ℝ) < q := by norm_num [hqdef]
  have hq : |q| ≤ 1 := by rw [abs_of_pos hqpos]; norm_num [hqdef]
  have hb := Real.exp_bound hq (by norm_num : 0 < 12)
  rw [abs_le] at hb
  obtain ⟨hb1, hb2⟩ := hb
  have hE : |q| ^ 12 * ((Nat.succ 12) / ((Nat.factorial 12) * (12 : ℕ) : ℝ)) ≤
      0.000000003 := by
    rw [abs_of_pos hqpos]
    have h1 : q ^ 12 ≤ 1 := pow_le_one₀ (le_of_lt hqpos) (by norm_num [hqdef])
    have h2 : ((Nat.succ 12) / ((Nat.factorial 12) * (12 : ℕ) : ℝ)) =
        13 / 5748019200 := by
      norm_num [Nat.factorial]
    rw [h2]
    nlinarith [h1, pow_nonneg (le_of_lt hqpos) 12]
  have hSlo : (2.4142135601 : ℝ) ≤ ∑ m ∈ Finset.range 12, q ^ m / m.factorial := by
    simp only [Finset.sum_range_succ, Finset.sum_range_zero, Nat.factorial]
    norm_num [hqdef]
  have hShi : (∑ m ∈ Finset.range 12, q ^ m / m.factorial) ≤ 2.4142135646 := by
    simp only [Finset.sum_range_succ, Finset.sum_range_zero, Nat.factorial]
    norm_num [hqdef]
  constructor
  · nlinarith [hb1, hSlo, hE]
  · nlinarith [hb2, hShi, hE]

/-- The map `e ↦ (e - e⁻¹)/(e + e⁻¹)` is bounded below using any smaller
bound `L ≥ 1`. -/
lemma tanh_frac_lb (L e : ℝ) (hL : 1 ≤ L) (hLe : L ≤ e) :
    (L * L - 1) / (L * L + 1) ≤ (e - e⁻¹) / (e + e⁻¹) := by
  have he : (0 : ℝ) < e := lt_of_lt_of_le one_pos (hL.trans hLe)
  have h1 : (0 : ℝ) < L * L + 1 := by nlinarith
  have h2 : (0 : ℝ) < e + e⁻¹ := by positivity
  rw [div_le_div_iff₀ h1 h2]
  have hinv : e⁻¹ * e = 1 := inv_mul_cancel₀ (ne_of_gt he)
  nlinarith [sq_nonneg (e - L), sq_nonneg e, mul_pos he he, inv_pos.mpr he]

/-- The map `e ↦ (e - e⁻¹)/(e + e⁻¹)` is bounded above using any larger
bound `U`. -/
lemma tanh_frac_ub (U e : ℝ) (he : 1 ≤ e) (heU : e ≤ U) :
    (e - e⁻¹) / (e + e⁻¹) ≤ (U * U - 1) / (U * U + 1) := by
  have hepos : (0 : ℝ) < e := lt_of_lt_of_le one_pos he
  have h1 : (0 : ℝ) < e + e⁻¹ := by positivity
  have h2 : (0 : ℝ) < U * U + 1 := by nlinarith
  rw [div_le_div_iff₀ h1 h2]
  have hinv : e⁻¹ * e = 1 := inv_mul_cancel₀ (ne_of_gt hepos)
  have h3 : e⁻¹ * e * e = e := by rw [hinv]; ring
  have hkey : 0 ≤ e⁻¹ * (U * U - e * e) :=
    mul_nonneg (le_of_lt (inv_pos.mpr hepos)) (by nlinarith)
  nlinarith [hkey, h3]

/-- The hyperbolic tangent as a rational function of `exp`. -/
lemma tanh_as_exp (x : ℝ) : Real.tanh x =
    (Real.exp x - (Real.exp x)⁻¹) / (Real.exp x + (Real.exp x)⁻¹) := by
  rw [Real.tanh_eq_sinh_div_cosh, Real.sinh_eq, Real.cosh_eq, Real.exp_neg,
    div_div_div_comm]
  norm_num

/-- Certified rational bounds on `tanh 0.8813735870195432`, the activation
value of the end-to-end scenario. -/
lemma tanh_q_bounds : (0.70710677 : ℝ) ≤ Real.tanh 0.8813735870195432 ∧
    Real.tanh 0.8813735870195432 ≤ 0.70710680 := by
  obtain ⟨hL, hU⟩ := exp_q_bounds
  have he1 : (1 : ℝ) ≤ Real.exp 0.8813735870195432 := by nlinarith
  rw [tanh_as_exp]
  constructor
  · have h1 := tanh_frac_lb 2.41421355 (Real.exp 0.8813735870195432) (by norm_num) hL
    have h2 : (0.70710677 : ℝ) ≤
        ((2.41421355 : ℝ) * 2.41421355 - 1) / (2.41421355 * 2.41421355 + 1) := by
      norm_num
    linarith
  · have h1 := tanh_frac_ub 2.41421358 (Real.exp 0.8813735870195432) he1 hU
    have h2 : ((2.41421358 : ℝ) * 2.41421358 - 1) / (2.41421358 * 2.41421358 + 1) ≤
        0.70710680 := by
      norm_num
    linarith

end Lemmas

section Claims

/-- C1: for leaves `x1=2.0, x2=0.0, w1=-3.0, w2=1.0, b=6.8813735870195432`,
building `n = x1*w1 + x2*w2 + b` and `o = tanh(n)` and invoking the
backward driver on `o` yields `o.data` within 1e-6 of 0.7071067811865476,
`grad(x1)` within 1e-6 of -1.5, `grad(w1)` within 1e-6 of 1.0, `grad(x2)`
within 1e-6 of 0.5, and `grad(w2)` within 1e-6 of 0.0. -/
theorem C1_end_to_end :
    FP.within (getN (backward scenarioStore 9) 9).data 0.7071067811865476 1e-6 ∧
    FP.within (getN (backward scenarioStore 9) 0).grad (-1.5) 1e-6 ∧
    FP.within (getN (backward scenarioStore 9) 2).grad 1.0 1e-6 ∧
    FP.within (getN (backward scenarioStore 9) 1).grad 0.5 1e-6 ∧
    FP.within (getN (backward scenarioStore 9) 3).grad 0.0 1e-6 := by
  have hb1 := tanh_q_bounds.1
  have hb2 := tanh_q_bounds.2
  norm_num at hb1 hb2
  simp [scenarioStore, valueNew, addV, mulV, tanhV, backward, topological_sort, dfsAux,
    bstep, applyRule, setGrad, getN, lenS, FP.add, FP.mul, FP.tanh, FP.sub, FP.powf,
    FP.within, List.getD]
  norm_num [abs_le]
  have ht2a : (0.49999996 : ℝ) ≤ Real.tanh (1101716983774429 / 1250000000000000) ^ 2 := by
    nlinarith [hb1, hb2]
  have ht2b : Real.tanh (1101716983774429 / 1250000000000000) ^ 2 ≤ 0.50000003 := by
    nlinarith [hb1, hb2]
  refine ⟨⟨by linarith, by linarith⟩, ⟨by linarith, by linarith⟩,
    ⟨by linarith, by linarith⟩, by linarith, by linarith⟩

/-- C2: for every leaf node `a` (any data, fresh grad 0.0), building the
sum of `a` with itself through two handles to the one node and running the
backward driver yields `grad(a) == 2.0`: the two edge contributions
accumulate with `+=` into the shared node instead of overwriting. -/
theorem C2_shared_use_accumulation (va : FP) (lab : String) :
    (getN (backward (addV (valueNew [] va lab).1 0 0).1 1) 0).grad = FP.fin 2 := by
  simp [valueNew, addV, backward, topological_sort, dfsAux, bstep, applyRule,
    setGrad, getN, lenS, FP.add, List.getD]
  norm_num

/-- C3: on every API-constructible store, `topological_sort` from a valid
root returns a sequence containing exactly the nodes reachable from the
root along `parents` edges (node identity being the underlying node, i.e.
the store index), each exactly once, every node strictly after all of its
parents. -/
theorem C3_topological_sort_correct (s : Store) (hs : Built s) (root : Nat)
    (hroot : root < lenS s) :
    (∀ x, x ∈ topological_sort s root ↔ Reach s root x) ∧
    (topological_sort s root).Nodup ∧ orderedT s (topological_sort s root) :=
  topo_spec s (built_wf s hs).1 root hroot

/-- C3 witness: the concrete graph `b = a + a` rooted at `b`. -/
theorem C3_witness :
    (∀ x, x ∈ topological_sort (addV (valueNew [] (FP.fin 2) "a").1 0 0).1 1 ↔
      Reach (addV (valueNew [] (FP.fin 2) "a").1 0 0).1 1 x) ∧
    (topological_sort (addV (valueNew [] (FP.fin 2) "a").1 0 0).1 1).Nodup ∧
    orderedT (addV (valueNew [] (FP.fin 2) "a").1 0 0).1
      (topological_sort (addV (valueNew [] (FP.fin 2) "a").1 0 0).1 1) :=
  C3_topological_sort_correct (addV (valueNew [] (FP.fin 2) "a").1 0 0).1
    (Built.addB _ 0 0 (Built.leaf [] (FP.fin 2) "a" Built.empty)
      (by simp [valueNew, lenS]) (by simp [valueNew, lenS]))
    1 (by simp [valueNew, addV, lenS])

/-- C4: dividing by a Value whose current `data` is exactly 0.0 aborts the
operation before any node is created (modelled by `none`): no result node
is produced, in particular none with infinite or NaN `data`, and the
operand store is left untouched by the failed call. -/
theorem C4_div_by_zero_aborts (s : Store) (a b : Nat)
    (hz : (getN s b).data = FP.fin 0) : divV s a b = none := by
  simp [divV, hz]

/-- C4 witness: dividing the leaf 1.0 by the leaf 0.0. -/
theorem C4_witness :
    divV (valueNew (valueNew [] (FP.fin 1) "a").1 (FP.fin 0) "b").1 0 1 = none :=
  C4_div_by_zero_aborts _ 0 1 (by simp [valueNew, getN, List.getD])

/-- C5: division and subtraction are not primitive node kinds: `a / b`
constructs exactly the graph of `multiply(a, power(b, -1))` (aborting on a
zero divisor) and `a - b` exactly the graph of `add(a, multiply(b, -1.0))`,
so forward values and the gradients produced by the backward driver
coincide with those of the desugared compositions. -/
theorem C5_div_sub_desugar (s : Store) (a b : Nat) :
    divV s a b = divideSpec s a b ∧
    subV s a b = subtractSpec s a b ∧
    (divV s a b).map (fun p => backward p.1 p.2) =
      (divideSpec s a b).map (fun p => backward p.1 p.2) ∧
    backward (subV s a b).1 (subV s a b).2 =
      backward (subtractSpec s a b).1 (subtractSpec s a b).2 :=
  ⟨rfl, rfl, rfl, rfl⟩

/-- C6: the backward driver performs exactly: topological sort of the
root's ancestor graph, seeding the root's gradient with 1.0, then a
reverse traversal whose step invokes the propagate closure where present
and leaves closure-free nodes (leaves) unchanged; the traversed order is
topological, so every consumer of a node is processed strictly before the
node itself; the driver returns nothing beyond the mutated store. -/
theorem C6_backward_driver_steps (s : Store) (hs : Built s) (root : Nat)
    (hroot : root < lenS s) :
    backward s root =
      (topological_sort s root).reverse.foldl bstep (setGrad s root (FP.fin 1)) ∧
    (∀ st i, (getN st i).backward = none → bstep st i = st) ∧
    (∀ st i r, (getN st i).backward = some r → bstep st i = applyRule st r) ∧
    orderedT s (topological_sort s root) :=
  ⟨rfl, fun st i h => by simp [bstep, h], fun st i r h => by simp [bstep, h],
    (topo_spec s (built_wf s hs).1 root hroot).2.2⟩

/-- C6 witness: the concrete graph `c = a * a` rooted at `c`. -/
theorem C6_witness :
    backward (mulV (valueNew [] (FP.fin 3) "a").1 0 0).1 1 =
      (topological_sort (mulV (valueNew [] (FP.fin 3) "a").1 0 0).1 1).reverse.foldl
        bstep (setGrad (mulV (valueNew [] (FP.fin 3) "a").1 0 0).1 1 (FP.fin 1)) ∧
    (∀ st i, (getN st i).backward = none → bstep st i = st) ∧
    (∀ st i r, (getN st i).backward = some r → bstep st i = applyRule st r) ∧
    orderedT (mulV (valueNew [] (FP.fin 3) "a").1 0 0).1
      (topological_sort (mulV (valueNew [] (FP.fin 3) "a").1 0 0).1 1) :=
  C6_backward_driver_steps (mulV (valueNew [] (FP.fin 3) "a").1 0 0).1
    (Built.mulB _ 0 0 (Built.leaf [] (FP.fin 3) "a" Built.empty)
      (by simp [valueNew, lenS]) (by simp [valueNew, lenS]))
    1 (by simp [valueNew, mulV, lenS])

/-- C7: on every store produced by a sequence of leaf constructions and
operator applications, the parents graph is acyclic: no node is ever
transitively its own parent. -/
theorem C7_parents_acyclic (s : Store) (hs : Built s) (i : Nat) :
    ¬ StrictReach s i i :=
  fun h => absurd (strictReach_lt s (built_wf s hs).1 h) (lt_irrefl i)

/-- C7 witness: the tanh node of a concrete graph is not its own ancestor. -/
theorem C7_witness : ¬ StrictReach (tanhV (valueNew [] (FP.fin 1) "x").1 0).1 1 1 :=
  C7_parents_acyclic (tanhV (valueNew [] (FP.fin 1) "x").1 0).1
    (Built.tanhB _ 0 (Built.leaf [] (FP.fin 1) "x" Built.empty)
      (by simp [valueNew, lenS])) 1

/-- C8: the backward driver mutates only `grad` fields of nodes reachable
from the root: the store keeps its length, every node keeps its `data`,
`label`, `op`, `parents` and propagate closure, and the gradient of every
node not reachable from the root is unchanged (no forward value is
recomputed: `data` is untouched). -/
theorem C8_backward_frame (s : Store) (hs : Built s) (root : Nat)
    (hroot : root < lenS s) :
    lenS (backward s root) = lenS s ∧
    (∀ i, (getN (backward s root) i).data = (getN s i).data ∧
      (getN (backward s root) i).label = (getN s i).label ∧
      (getN (backward s root) i).op = (getN s i).op ∧
      (getN (backward s root) i).prev = (getN s i).prev ∧
      (getN (backward s root) i).backward = (getN s i).backward) ∧
    (∀ i, ¬ Reach s root i → (getN (backward s root) i).grad = (getN s i).grad) := by
  obtain ⟨hWF, hR⟩ := built_wf s hs
  refine ⟨lenS_backward s root, fun i => ?_, fun i hi => ?_⟩
  · have h := backward_frame s root i
    simp [nodeFrame, Prod.ext_iff] at h
    exact ⟨h.1, h.2.1, h.2.2.2.1, h.2.2.1, h.2.2.2.2⟩
  · have hir : i ≠ root := fun he => hi (by rw [he]; exact Relation.ReflTransGen.refl)
    have hb0 : ∀ j, (getN (setGrad s root (FP.fin 1)) j).backward =
        (getN s j).backward :=
      fun j => frame_backward_eq (setGrad_frame s root (FP.fin 1) j)
    have hm : ∀ x ∈ (topological_sort s root).reverse, Reach s root x := by
      intro x hx
      rw [List.mem_reverse] at hx
      exact ((topo_spec s hWF root hroot).1 x).mp hx
    rw [backward, backward_fold_grad_frame s hR root _ _ hm hb0 i hi,
      getN_setGrad_ne s root i _ hir]

/-- C8 witness: the concrete graph `y = exp(x)` rooted at `y`. -/
theorem C8_witness :
    lenS (backward (expV (valueNew [] (FP.fin 1) "x").1 0).1 1) =
      lenS (expV (valueNew [] (FP.fin 1) "x").1 0).1 ∧
    (∀ i, (getN (backward (expV (valueNew [] (FP.fin 1) "x").1 0).1 1) i).data =
        (getN (expV (valueNew [] (FP.fin 1) "x").1 0).1 i).data ∧
      (getN (backward (expV (valueNew [] (FP.fin 1) "x").1 0).1 1) i).label =
        (getN (expV (valueNew [] (FP.fin 1) "x").1 0).1 i).label ∧
      (getN (backward (expV (valueNew [] (FP.fin 1) "x").1 0).1 1) i).op =
        (getN (expV (valueNew [] (FP.fin 1) "x").1 0).1 i).op ∧
      (getN (backward (expV (valueNew [] (FP.fin 1) "x").1 0).1 1) i).prev =
        (getN (expV (valueNew [] (FP.fin 1) "x").1 0).1 i).prev ∧
      (getN (backward (expV (valueNew [] (FP.fin 1) "x").1 0).1 1) i).backward =
        (getN (expV (valueNew [] (FP.fin 1) "x").1 0).1 i).backward) ∧
    (∀ i, ¬ Reach (expV (valueNew [] (FP.fin 1) "x").1 0).1 1 i →
      (getN (backward (expV (valueNew [] (FP.fin 1) "x").1 0).1 1) i).grad =
        (getN (expV (valueNew [] (FP.fin 1) "x").1 0).1 i).grad) :=
  C8_backward_frame (expV (valueNew [] (FP.fin 1) "x").1 0).1
    (Built.expB _ 0 (Built.leaf [] (FP.fin 1) "x" Built.empty)
      (by simp [valueNew, lenS]))
    1 (by simp [valueNew, expV, lenS])

/-- C9: `powop` produces a node with `data = a.data ^ k` whose single
parent is `a` (the constant exponent `k` is not a node, the store grows by
exactly one node), its backward closure adds `k * a.data^(k-1) * out_grad`
into `a`'s grad; concretely, for a leaf `a = 2.0` and `c = a.powop(2)`,
after the backward driver `c.data == 4.0` and `grad(a) == 4.0`. -/
theorem C9_power_rule (s : Store) (a : Nat) (k : ℝ) :
    (lenS (powop s a k).1 = lenS s + 1 ∧
      (getN (powop s a k).1 (powop s a k).2).data = FP.powf (getN s a).data k ∧
      (getN (powop s a k).1 (powop s a k).2).prev = [a] ∧
      (getN (powop s a k).1 (powop s a k).2).backward =
        some (.powR (powop s a k).2 a k)) ∧
    (∀ st out, applyRule st (.powR out a k) =
      setGrad st a (FP.add (getN st a).grad
        (FP.mul (FP.mul (FP.fin k) (FP.powf (getN st a).data (k - 1)))
          (getN st out).grad))) ∧
    ((getN (backward (powop (valueNew [] (FP.fin 2) "a").1 0 2).1 1) 1).data =
        FP.fin 4 ∧
      (getN (backward (powop (valueNew [] (FP.fin 2) "a").1 0 2).1 1) 0).grad =
        FP.fin 4) := by
  refine ⟨⟨by simp [powop, lenS], by simp [powop, getN_append_self],
    by simp [powop, getN_append_self], by simp [powop, getN_append_self]⟩,
    fun st out => rfl, ?_, ?_⟩
  · simp [valueNew, powop, backward, topological_sort, dfsAux, bstep, applyRule,
      setGrad, getN, lenS, FP.add, FP.mul, FP.powf, List.getD]
    norm_num [Real.rpow_two]
  · simp [valueNew, powop, backward, topological_sort, dfsAux, bstep, applyRule,
      setGrad, getN, lenS, FP.add, FP.mul, FP.powf, List.getD]
    norm_num [Real.rpow_one]

/-- C10: dividing a Value by a raw `f64` scalar performs no zero check:
with divisor 0.0 the operation does not abort but appends the three nodes
of `self * (Value::from(0.0).powop(-1))`, whose result `data` is
`self.data * (0.0 ^ -1) = self.data * inf`, an infinite or NaN value --
unlike Value / Value division, which aborts on a zero divisor. -/
theorem C10_scalar_div_no_zero_check (s : Store) (a : Nat) (ha : a < lenS s) :
    lenS (divF s a 0).1 = lenS s + 3 ∧
    FP.powf (FP.fin 0) (-1) = FP.inf ∧
    (getN (divF s a 0).1 (divF s a 0).2).data = FP.mul (getN s a).data FP.inf ∧
    FP.infOrNan (getN (divF s a 0).1 (divF s a 0).2).data := by
  have hpow : FP.powf (FP.fin 0) (-1) = FP.inf := by norm_num [FP.powf]
  have hdata : (getN (divF s a 0).1 (divF s a 0).2).data =
      FP.mul (getN s a).data FP.inf := by
    simp only [divF, mulV, powop, valueNew, getN_append_self]
    rw [hpow, getN_append_lt _ _ a (by rw [lenS_append_one]; omega),
      getN_append_lt _ _ a ha]
  refine ⟨by simp [divF, mulV, powop, valueNew, lenS], hpow, hdata, ?_⟩
  rw [hdata]
  rcases hx : (getN s a).data with x | _ | _ | _
  · by_cases h0 : x = 0
    · simp [FP.mul, h0, FP.infOrNan]
    · by_cases hposx : 0 < x
      · simp [FP.mul, h0, hposx, FP.infOrNan]
      · simp [FP.mul, h0, hposx, FP.infOrNan]
  · simp [FP.mul, FP.infOrNan]
  · simp [FP.mul, FP.infOrNan]
  · simp [FP.mul, FP.infOrNan]

/-- C10 witness: dividing a concrete leaf by the scalar 0.0. -/
theorem C10_witness :
    lenS (divF (valueNew [] (FP.fin 5) "a").1 0 0).1 =
      lenS (valueNew [] (FP.fin 5) "a").1 + 3 ∧
    FP.powf (FP.fin 0) (-1) = FP.inf ∧
    (getN (divF (valueNew [] (FP.fin 5) "a").1 0 0).1
        (divF (valueNew [] (FP.fin 5) "a").1 0 0).2).data =
      FP.mul (getN (valueNew [] (FP.fin 5) "a").1 0).data FP.inf ∧
    FP.infOrNan (getN (divF (valueNew [] (FP.fin 5) "a").1 0 0).1
        (divF (valueNew [] (FP.fin 5) "a").1 0 0).2).data :=
  C10_scalar_div_no_zero_check (valueNew [] (FP.fin 5) "a").1 0
    (by simp [valueNew, lenS])

end Claims

end Micrograd
